import Mathlib

set_option linter.unusedVariables false

/- ================================================================
   Shallow embedding of the Portfolio X-Ray analytics core.

   Sources modelled:
     src/analytics/data_loader.py   (fetch_price_data and its auto-healing loop)
     src/analytics/portfolio.py     (build_portfolio)
     src/analytics/risk_analysis.py (compute_asset_returns, compute_portfolio_returns,
                                     identify_stress_periods, compute_correlation_matrices)
     horizon_risk_summary           (imported by src/app.py from analytics.risk_analysis
                                     but absent from the source tree; modelled from the spec)

   Numbers are embedded as rationals; a pandas NaN cell is Option.none.
   ================================================================ -/

/-- A per-ticker price series over the provider's date index; a missing
observation (pandas NaN) is none. -/
abbrev Series := List (Option ℚ)

/-- Abstraction of the external market-data provider (yfinance) for a fixed
date range: a universal date index of length nDates, and for each ticker
either its adjusted-close-or-close column over that index, or nothing when
the downloaded frame carries no column for that ticker (the KeyError branch
of the extraction loop in data_loader.py).  The spec treats the provider as
an external capability, so fetch_price_data is modelled relative to a fixed
Market; the download is deterministic per ticker, matching the spec's
determinism note. -/
structure Market where
  nDates : Nat
  series : String → Option Series

/-- Align a raw series to the frame's date index: truncate or pad with NaN,
as pandas does when a column is assigned into a frame. -/
def padTo (n : Nat) (s : Series) : Series :=
  (s ++ List.replicate n none).take n

/-- The column the extraction loop produces for a ticker, aligned to the
frame index (none when the ticker yields no column at all). -/
def colOf (mkt : Market) (t : String) : Option Series :=
  (mkt.series t).map (padTo mkt.nDates)

/-- The removal test of data_loader.py lines 80-84: a ticker is flagged when
it is not among the extracted columns or its whole column is NaN. -/
def flagTicker (mkt : Market) (t : String) : Bool :=
  match colOf mkt t with
  | none => true
  | some c => c.all Option.isNone

/-- Forward fill (pandas ffill), carrying the last seen value. -/
def ffillFrom (last : Option ℚ) : Series → Series
  | [] => []
  | some x :: rest => some x :: ffillFrom (some x) rest
  | none :: rest => last :: ffillFrom last rest

/-- Forward fill a column, as prices.ffill() does per column. -/
def ffill (s : Series) : Series := ffillFrom none s

/-- Index of the first non-NaN observation of a column
(pandas Series.first_valid_index). -/
def firstValid : Series → Option Nat
  | [] => none
  | some _ :: _ => some 0
  | none :: rest => (firstValid rest).map (· + 1)

/-- The i-th row of a frame given as a list of columns. -/
def rowAt (cs : List Series) (i : Nat) : List (Option ℚ) :=
  cs.map (fun c => c.getD i none)

/-- The rows surviving prices.dropna(): dates of the index where no column
is NaN, paired with their row of cells. -/
def cleanedRows (cs : List Series) (n : Nat) : List (Nat × List (Option ℚ)) :=
  ((List.range n).map (fun i => (i, rowAt cs i))).filter (fun p => p.2.all Option.isSome)

/-- Distinct elements in first-occurrence order, as repeated column
assignment into a pandas frame keeps a single column per ticker. -/
def dedupFirstAux (seen : List String) : List String → List String
  | [] => []
  | t :: rest => if t ∈ seen then dedupFirstAux seen rest
                 else t :: dedupFirstAux (t :: seen) rest

/-- Distinct tickers in first-occurrence order. -/
def dedupFirst (l : List String) : List String := dedupFirstAux [] l

/-- Scan for pandas Series.idxmax over optional values: keep the first
position attaining the maximum, skipping NaN entries. -/
def idxmaxGo : Option (String × Nat) → List (String × Option Nat) → Option (String × Nat)
  | best, [] => best
  | best, (t, ov) :: rest =>
    match ov with
    | none => idxmaxGo best rest
    | some v =>
      match best with
      | none => idxmaxGo (some (t, v)) rest
      | some (bt, bv) => idxmaxGo (if bv < v then some (t, v) else some (bt, bv)) rest

/-- pandas Series.idxmax on the ticker-indexed series of first-valid dates:
first label attaining the maximum, NaN entries skipped. -/
def idxmaxO (l : List (String × Option Nat)) : Option String :=
  (idxmaxGo none l).map Prod.fst

/-- Error exits of fetch_price_data, by raise site. -/
inductive FetchError where
  | emptyTickers
  | allDropped
  | noData
  | noCommonRange
deriving DecidableEq

/-- The cleaned price table fetch_price_data returns: one ticker per column,
and the surviving (date, cells) rows of the forward-filled frame. -/
structure PriceTable where
  tickers : List String
  rows : List (Nat × List (Option ℚ))
deriving DecidableEq

/-- Outcome of one iteration of the auto-healing loop body. -/
inductive StepResult where
  | fail (e : FetchError)
  | done (tbl : PriceTable) (dropped : List String)
  | next (working dropped : List String)
deriving DecidableEq

/-- One iteration of the auto-healing loop body of fetch_price_data
(data_loader.py lines 25-114): empty-set check, download + empty-frame
check, extraction, removal of dataless tickers, forward fill, dropna,
success test, and the drop of the latest-starting ticker. -/
def healStep (mkt : Market) (working dropped : List String) : StepResult :=
  if working.isEmpty then .fail .allDropped
  else if mkt.nDates = 0 then .fail .noData
  else
    let toRemove := working.filter (fun t => flagTicker mkt t)
    if toRemove.isEmpty then
      let cols := dedupFirst working
      let ff := cols.map (fun t => ffill ((colOf mkt t).getD []))
      let cleaned := cleanedRows ff mkt.nDates
      if cleaned.isEmpty then
        match idxmaxO (cols.map (fun t => (t, firstValid (ffill ((colOf mkt t).getD []))))) with
        | some p => .next (working.erase p) (dropped ++ [p])
        | none => .fail .noCommonRange
      else .done ⟨cols, cleaned⟩ dropped
    else .next (working.filter (fun t => !flagTicker mkt t)) (dropped ++ toRemove)

/-- The bounded retry loop: for _ in range(max_retries), falling through to
the could-not-find-a-common-range raise when the budget is exhausted. -/
def fetchLoop (mkt : Market) : Nat → List String → List String →
    Except FetchError (PriceTable × List String)
  | 0, _, _ => .error .noCommonRange
  | fuel + 1, working, dropped =>
    match healStep mkt working dropped with
    | .fail e => .error e
    | .done tbl dr => .ok (tbl, dr)
    | .next w d => fetchLoop mkt fuel w d

/-- fetch_price_data of data_loader.py: empty-argument check, then the
auto-healing loop with retry budget len(tickers). -/
def fetch_price_data (mkt : Market) (tickers : List String) :
    Except FetchError (PriceTable × List String) :=
  if tickers.isEmpty then .error .emptyTickers
  else fetchLoop mkt tickers.length tickers []

/-- Number of loop-body iterations the retry loop executes before exiting
(by success, by raising, or by exhausting the range bound). -/
def loopIters (mkt : Market) : Nat → List String → List String → Nat
  | 0, _, _ => 0
  | fuel + 1, working, dropped =>
    match healStep mkt working dropped with
    | .next w d => loopIters mkt fuel w d + 1
    | _ => 1

/- ================================================================
   src/analytics/portfolio.py
   ================================================================ -/

/-- A raw portfolio record (ticker, amount, asset_type). -/
structure PortfolioRecord where
  ticker : String
  amount : ℚ
  assetType : String
deriving DecidableEq

/-- Error exits of build_portfolio, by raise site. -/
inductive PortfolioError where
  | emptyRecords
  | nonPositiveAmount
deriving DecidableEq

/-- build_portfolio of portfolio.py: validation, then annotate each record
with allocation_pct = amount / total * 100. -/
def build_portfolio (rs : List PortfolioRecord) :
    Except PortfolioError (List (PortfolioRecord × ℚ)) :=
  if rs.isEmpty then .error .emptyRecords
  else if rs.any (fun r => r.amount ≤ 0) then .error .nonPositiveAmount
  else
    let total := (rs.map (fun r => r.amount)).sum
    .ok (rs.map (fun r => (r, r.amount / total * 100)))

/- ================================================================
   src/analytics/risk_analysis.py
   ================================================================ -/

/-- A NaN-free date-indexed frame (a cleaned price table or a returns
table): column labels, date index, and one row of cells per date. -/
structure DFrame where
  cols : List String
  dates : List Nat
  rows : List (List ℚ)
deriving DecidableEq

/-- pandas DataFrame.empty: no rows or no columns. -/
def DFrame.isEmpty (f : DFrame) : Bool :=
  f.rows.isEmpty || f.cols.isEmpty

/-- Error exits of the risk_analysis functions, by raise site. -/
inductive RiskError where
  | priceDataEmpty
  | returnsDataEmpty
  | portfolioReturnsEmpty
  | noStressData
  | locKeyError
  | insufficientHistory
deriving DecidableEq

/-- One cell of pct_change: (cur - prev) / prev.  pandas produces NaN
exactly when both are 0 (0/0); when only prev is 0 it produces an infinity,
a non-NaN float that dropna keeps — the embedding keeps the row with the
rational convention value, and no theorem below depends on the value at a
zero denominator. -/
def pctCell (prev cur : ℚ) : Option ℚ :=
  if prev = 0 ∧ cur = 0 then none else some ((cur - prev) / prev)

/-- Tail of pct_change: each row against its predecessor. -/
def pctAux (prev : List ℚ) : List (List ℚ) → List (List (Option ℚ))
  | [] => []
  | r :: rs => (List.zipWith pctCell prev r) :: pctAux r rs

/-- pandas DataFrame.pct_change on a NaN-free frame: an all-NaN first row,
then period-over-period fractional change per column. -/
def pctChangeRows : List (List ℚ) → List (List (Option ℚ))
  | [] => []
  | r :: rs => (r.map (fun _ => none)) :: pctAux r rs

/-- pandas dropna on (date, row) pairs: keep exactly the rows with no NaN,
recovering plain values. -/
def dropnaRows : List (Nat × List (Option ℚ)) → List (Nat × List ℚ)
  | [] => []
  | p :: l =>
    if p.2.all Option.isSome then (p.1, p.2.reduceOption) :: dropnaRows l
    else dropnaRows l

/-- compute_asset_returns of risk_analysis.py: empty check, pct_change,
dropna, empty check on the result. -/
def compute_asset_returns (p : DFrame) : Except RiskError DFrame :=
  if p.isEmpty then .error .priceDataEmpty
  else
    let kept := dropnaRows (p.dates.zip (pctChangeRows p.rows))
    let out : DFrame := ⟨p.cols, kept.map Prod.fst, kept.map Prod.snd⟩
    if out.isEmpty then .error .returnsDataEmpty else .ok out

/-- One dot-product step against reindexed weights: a NaN weight poisons the
accumulator, as np.dot propagates NaN. -/
def dotStep (acc : Option ℚ) (p : ℚ × Option ℚ) : Option ℚ :=
  match acc, p.2 with
  | some a, some w => some (a + p.1 * (w / 100))
  | _, _ => none

/-- asset_returns.dot(weights / 100) for one date row, after the weights
were reindexed to the frame's columns (none = NaN for a missing ticker). -/
def dotRow (row : List ℚ) (w : List (Option ℚ)) : Option ℚ :=
  (row.zip w).foldl dotStep (some 0)

/-- compute_portfolio_returns of risk_analysis.py: reindex the weights to
the returns' columns (a ticker with no weight becomes NaN, a weight with no
column is dropped), then the per-date dot product with weights / 100. -/
def compute_portfolio_returns (ar : DFrame) (weights : List (String × ℚ)) :
    List (Nat × Option ℚ) :=
  let w := ar.cols.map (fun c => List.lookup c weights)
  ar.dates.zip (ar.rows.map (fun row => dotRow row w))

/-- pandas Series.quantile with the default linear interpolation: sort the
values, take position h = (n - 1) * q, and interpolate between the two
neighbouring order statistics.  Faithful to pandas on 0 ≤ q ≤ 1 (outside
that range pandas raises). -/
def sampleQuantile (xs : List ℚ) (q : ℚ) : ℚ :=
  let s := xs.insertionSort (fun a b => a ≤ b)
  let n := s.length
  let h : ℚ := ((n : ℚ) - 1) * q
  let i : Nat := (⌊h⌋).toNat
  let lo := s.getD i 0
  let hi := s.getD (i + 1) lo
  lo + (h - (i : ℚ)) * (hi - lo)

/-- identify_stress_periods of risk_analysis.py: empty check, then the dates
whose return is at or below the sample quantile of the series. -/
def identify_stress_periods (s : List (Nat × ℚ)) (q : ℚ) :
    Except RiskError (List Nat) :=
  if s.isEmpty then .error .portfolioReturnsEmpty
  else
    let threshold := sampleQuantile (s.map Prod.snd) q
    .ok ((s.filter (fun p => p.2 ≤ threshold)).map Prod.fst)

/-- Column j of a frame as a list of values. -/
def DFrame.colVals (f : DFrame) (j : Nat) : List ℚ :=
  f.rows.map (fun r => r.getD j 0)

/-- Pearson correlation of two value lists (pandas DataFrame.corr entries).
The square root forces real numbers, so this definition is the one
non-executable point of the embedding; no theorem below inspects the
resulting values, only the error behaviour around them. -/
noncomputable def pearson (xs ys : List ℚ) : ℝ :=
  let n : ℚ := (xs.length : ℚ)
  let mx := xs.sum / n
  let my := ys.sum / n
  let cov : ℚ := ((xs.zip ys).map (fun p => (p.1 - mx) * (p.2 - my))).sum
  let vx : ℚ := (xs.map (fun x => (x - mx) ^ 2)).sum
  let vy : ℚ := (ys.map (fun y => (y - my) ^ 2)).sum
  (cov : ℝ) / (Real.sqrt (vx : ℝ) * Real.sqrt (vy : ℝ))

/-- pandas DataFrame.corr: the ticker-by-ticker Pearson matrix. -/
noncomputable def corrMatrix (f : DFrame) : List (List ℝ) :=
  (List.range f.cols.length).map (fun i =>
    (List.range f.cols.length).map (fun j => pearson (f.colVals i) (f.colVals j)))

/-- pandas .loc[stress_dates] row selection: for each requested date, every
matching (date, row) pair of the frame, in request order. -/
def locRows (f : DFrame) (ds : List Nat) : List (Nat × List ℚ) :=
  ds.flatMap (fun d => (f.dates.zip f.rows).filter (fun p => p.1 = d))

/-- compute_correlation_matrices of risk_analysis.py: full-sample matrix,
row selection at the stress dates (pandas .loc raises KeyError on a label
missing from the index), empty check, stress matrix. -/
noncomputable def compute_correlation_matrices (ar : DFrame) (stress : List Nat) :
    Except RiskError (List (List ℝ) × List (List ℝ)) :=
  let normal := corrMatrix ar
  if stress.all (fun d => ar.dates.contains d) then
    let sel := locRows ar stress
    let sf : DFrame := ⟨ar.cols, sel.map Prod.fst, sel.map Prod.snd⟩
    if sf.isEmpty then .error .noStressData
    else .ok (normal, corrMatrix sf)
  else .error .locKeyError

/- ================================================================
   horizon_risk_summary (spec-modelled)
   ================================================================ -/

/-- One output row of horizon_risk_summary. -/
structure HorizonRow where
  label : String
  worstReturn : ℚ
  probLoss : ℚ
deriving DecidableEq

/-- Compounded return of one window of simple returns. -/
def compoundWindow (w : List ℚ) : ℚ :=
  (w.map (fun r => 1 + r)).prod - 1

/-- All overlapping contiguous windows of length n. -/
def windowsOf (n : Nat) (rs : List ℚ) : List (List ℚ) :=
  (List.range (rs.length + 1 - n)).map (fun i => (rs.drop i).take n)

/-- Minimum of a list of rationals (0 on an empty list; only applied to
non-empty window lists below). -/
def minQ : List ℚ → ℚ
  | [] => 0
  | x :: xs => xs.foldl min x

/-- Modelled from the spec: horizon_risk_summary is imported by src/app.py
from analytics.risk_analysis but its definition is missing from the source
tree, so it is modelled from spec §4.7: for each configured (label, window
length) pair that fits strictly within the available history, the minimum
compounded return over all overlapping rolling windows of that length and
the fraction of such windows with negative compounded return; it fails with
the InsufficientDataError kind when no configured horizon fits. -/
def horizon_risk_summary (rs : List (Nat × ℚ)) (horizons : List (String × Nat)) :
    Except RiskError (List HorizonRow) :=
  let vals := rs.map Prod.snd
  let fits := horizons.filter (fun h => decide (0 < h.2 ∧ h.2 < vals.length))
  if fits.isEmpty then .error .insufficientHistory
  else .ok (fits.map (fun h =>
    let cws := (windowsOf h.2 vals).map compoundWindow
    ⟨h.1, minQ cws, ((cws.filter (fun x => x < 0)).length : ℚ) / (cws.length : ℚ)⟩))

/-- Decidable equality on results, so that concrete runs of the embedded
functions can be settled by the kernel. -/
instance {ε α : Type} [DecidableEq ε] [DecidableEq α] : DecidableEq (Except ε α) := fun x y =>
  match x, y with
  | .error a, .error b =>
    if h : a = b then .isTrue (by rw [h]) else .isFalse (fun hh => h (by injection hh))
  | .error a, .ok b => .isFalse (fun hh => by injection hh)
  | .ok a, .error b => .isFalse (fun hh => by injection hh)
  | .ok a, .ok b =>
    if h : a = b then .isTrue (by rw [h]) else .isFalse (fun hh => h (by injection hh))

/-- Verification-side invariant of the auto-healing loop state: dropped and
working tickers are disjoint, both come from the initial list, and every
initial ticker is still working or was dropped. -/
def LoopInv (tickers working dropped : List String) : Prop :=
  (∀ t ∈ dropped, t ∉ working) ∧ (∀ t ∈ working, t ∈ tickers) ∧
  (∀ t ∈ dropped, t ∈ tickers) ∧ (∀ t ∈ tickers, t ∈ working ∨ t ∈ dropped)

/- ================================================================
   General helper lemmas
   ================================================================ -/

theorem list_sum_div_mul (l : List ℚ) (T c : ℚ) :
    (l.map (fun a => a / T * c)).sum = l.sum / T * c := by
  induction l with
  | nil => simp
  | cons x xs ih => simp [ih, add_div, add_mul]

theorem foldl_min_le_init (xs : List ℚ) : ∀ a : ℚ, xs.foldl min a ≤ a := by
  induction xs with
  | nil => intro a; exact le_refl a
  | cons y ys ih => intro a; exact le_trans (ih (min a y)) (min_le_left a y)

theorem foldl_min_le_mem (xs : List ℚ) : ∀ a x, x ∈ xs → xs.foldl min a ≤ x := by
  induction xs with
  | nil => intro a x hx; cases hx
  | cons y ys ih =>
    intro a x hx
    rcases List.mem_cons.mp hx with h | h
    · subst h; exact le_trans (foldl_min_le_init ys (min a x)) (min_le_right a x)
    · exact ih (min a y) x h

theorem foldl_min_mem (xs : List ℚ) : ∀ a, xs.foldl min a ∈ a :: xs := by
  induction xs with
  | nil => intro a; exact List.mem_singleton.mpr rfl
  | cons y ys ih =>
    intro a
    rw [List.foldl_cons]
    have h := ih (min a y)
    rcases List.mem_cons.mp h with h1 | h1
    · rw [h1]
      rcases min_choice a y with h2 | h2
      · rw [h2]; exact List.mem_cons_self a (y :: ys)
      · rw [h2]; exact List.mem_cons_of_mem a (List.mem_cons_self y ys)
    · exact List.mem_cons_of_mem a (List.mem_cons_of_mem y h1)

theorem minQ_mem (l : List ℚ) (h : l ≠ []) : minQ l ∈ l := by
  cases l with
  | nil => exact absurd rfl h
  | cons x xs => exact foldl_min_mem xs x

theorem minQ_le (l : List ℚ) : ∀ x ∈ l, minQ l ≤ x := by
  cases l with
  | nil => intro x hx; cases hx
  | cons y ys =>
    intro x hx
    rcases List.mem_cons.mp hx with h | h
    · subst h; exact foldl_min_le_init ys x
    · exact foldl_min_le_mem ys y x h

theorem foldl_dotStep_none (l : List (ℚ × Option ℚ)) : l.foldl dotStep none = none := by
  induction l with
  | nil => rfl
  | cons x xs ih => simpa [dotStep] using ih

theorem foldl_dotStep_mem_none (l : List (ℚ × Option ℚ)) :
    ∀ a, (∃ p ∈ l, p.2 = none) → l.foldl dotStep a = none := by
  induction l with
  | nil => rintro a ⟨p, hp, _⟩; cases hp
  | cons x xs ih =>
    rintro a ⟨p, hp, hp2⟩
    rcases List.mem_cons.mp hp with h | h
    · subst h
      have : dotStep a p = none := by cases a <;> simp [dotStep, hp2]
      rw [List.foldl_cons, this, foldl_dotStep_none]
    · rw [List.foldl_cons]
      exact ih (dotStep a x) ⟨p, h, hp2⟩

theorem foldl_dotStep_some (l : List (ℚ × Option ℚ)) :
    ∀ a, (∀ p ∈ l, p.2.isSome = true) →
      l.foldl dotStep (some a) = some (a + (l.map (fun p => p.1 * (p.2.getD 0 / 100))).sum) := by
  induction l with
  | nil => intro a _; simp
  | cons x xs ih =>
    intro a h
    obtain ⟨w, hw⟩ := Option.isSome_iff_exists.mp (h x (List.mem_cons_self x xs))
    rw [List.foldl_cons]
    have hs : dotStep (some a) x = some (a + x.1 * (w / 100)) := by simp [dotStep, hw]
    rw [hs, ih _ (fun p hp => h p (List.mem_cons_of_mem x hp))]
    simp [hw, add_assoc]

theorem dotRow_all_some (row : List ℚ) (w : List (Option ℚ))
    (h : ∀ p ∈ row.zip w, p.2.isSome = true) :
    dotRow row w = some (((row.zip w).map (fun p => p.1 * (p.2.getD 0 / 100))).sum) := by
  unfold dotRow
  rw [foldl_dotStep_some (row.zip w) 0 h, zero_add]

theorem reduceOption_zipWith_pctCell (prev : List ℚ) (hp : ∀ x ∈ prev, x ≠ 0) :
    ∀ r : List ℚ, (List.zipWith pctCell prev r).reduceOption =
      List.zipWith (fun a b => (b - a) / a) prev r := by
  induction prev with
  | nil => intro r; simp
  | cons a as ih =>
    intro r
    cases r with
    | nil => simp
    | cons b bs =>
      have ha : a ≠ 0 := hp a (List.mem_cons_self a as)
      have hc : pctCell a b = some ((b - a) / a) := by simp [pctCell, ha]
      simp only [List.zipWith_cons_cons, hc, List.reduceOption_cons_of_some]
      rw [ih (fun x hx => hp x (List.mem_cons_of_mem a hx)) bs]

theorem zipWith_pctCell_all_some (prev : List ℚ) (hp : ∀ x ∈ prev, x ≠ 0) :
    ∀ r : List ℚ, (List.zipWith pctCell prev r).all Option.isSome = true := by
  induction prev with
  | nil => intro r; simp
  | cons a as ih =>
    intro r
    cases r with
    | nil => simp
    | cons b bs =>
      have ha : a ≠ 0 := hp a (List.mem_cons_self a as)
      have hc : pctCell a b = some ((b - a) / a) := by simp [pctCell, ha]
      simp only [List.zipWith_cons_cons, List.all_cons, hc, Option.isSome_some, Bool.true_and]
      exact ih (fun x hx => hp x (List.mem_cons_of_mem a hx)) bs

theorem dropna_pctAux (rs : List (List ℚ)) :
    ∀ (prev : List ℚ) (ds : List Nat), (∀ x ∈ prev, x ≠ 0) →
      (∀ r ∈ rs, ∀ x ∈ r, x ≠ 0) →
      dropnaRows (ds.zip (pctAux prev rs)) =
        ds.zip (((prev :: rs).zip rs).map
          (fun pr => List.zipWith (fun a b => (b - a) / a) pr.1 pr.2)) := by
  induction rs with
  | nil => intro prev ds _ _; simp [pctAux, dropnaRows]
  | cons r rest ih =>
    intro prev ds hp hrs
    cases ds with
    | nil => simp [dropnaRows]
    | cons d ds2 =>
      have hall := zipWith_pctCell_all_some prev hp r
      have hred := reduceOption_zipWith_pctCell prev hp r
      have hrest := ih r ds2 (hrs r (List.mem_cons_self r rest))
        (fun x hx => hrs x (List.mem_cons_of_mem r hx))
      simp only [pctAux, List.zip_cons_cons, List.map_cons, dropnaRows]
      rw [if_pos hall, hred]
      simp only [List.zip] at hrest ⊢
      rw [hrest]

theorem zip_map_mem_none (cols : List String) :
    ∀ (row : List ℚ) (f : String → Option ℚ) (c : String), c ∈ cols →
      row.length = cols.length → f c = none →
      ∃ p ∈ row.zip (cols.map f), p.2 = none := by
  induction cols with
  | nil => intro row f c hc; cases hc
  | cons c0 cs ih =>
    intro row f c hc hlen hfc
    cases row with
    | nil => simp at hlen
    | cons x xs =>
      rcases List.mem_cons.mp hc with h | h
      · subst h
        exact ⟨(x, f c), by simp [hfc], hfc ▸ rfl⟩
      · obtain ⟨p, hp, hp2⟩ := ih xs f c h (by simpa using hlen) hfc
        exact ⟨p, by simp [List.mem_cons]; right; simpa using hp, hp2⟩

/-- C7: build_portfolio rejects an empty record list and any non-positive
amount with the ValidationError kind, and on valid input returns the same
records annotated with allocation_pct = amount / total * 100, whose sum is
100 within 1e-9 (exactly 100 over the rationals). -/
theorem build_portfolio_allocations (rs : List PortfolioRecord) :
    (rs = [] → build_portfolio rs = .error .emptyRecords) ∧
    ((∃ r ∈ rs, r.amount ≤ 0) → build_portfolio rs = .error .nonPositiveAmount) ∧
    (rs ≠ [] → (∀ r ∈ rs, 0 < r.amount) →
      build_portfolio rs =
        .ok (rs.map (fun r => (r, r.amount / (rs.map (fun x => x.amount)).sum * 100))) ∧
      |(rs.map (fun r => r.amount / (rs.map (fun x => x.amount)).sum * 100)).sum - 100| ≤
        1 / 1000000000) := by
  refine ⟨?_, ?_, ?_⟩
  · intro h; subst h; rfl
  · rintro ⟨r, hr, hle⟩
    have hne : rs.isEmpty = false := by
      cases rs with
      | nil => cases hr
      | cons a l => rfl
    have hany : rs.any (fun r => decide (r.amount ≤ 0)) = true :=
      List.any_eq_true.mpr ⟨r, hr, decide_eq_true hle⟩
    simp [build_portfolio, hne, hany]
  · intro hne hpos
    have hne2 : rs.isEmpty = false := by
      cases rs with
      | nil => exact absurd rfl hne
      | cons a l => rfl
    have hany : rs.any (fun r => decide (r.amount ≤ 0)) = false := by
      rw [List.any_eq_false]
      intro r hr
      simp only [decide_eq_true_eq, not_le]
      exact hpos r hr
    refine ⟨by simp [build_portfolio, hne2, hany], ?_⟩
    have hTpos : 0 < (rs.map (fun x => x.amount)).sum := by
      apply List.sum_pos
      · intro x hx
        obtain ⟨r, hr, hrx⟩ := List.mem_map.mp hx
        exact hrx ▸ hpos r hr
      · simpa using hne
    have hmm : rs.map (fun r => r.amount / (rs.map (fun x => x.amount)).sum * 100) =
        (rs.map (fun x => x.amount)).map
          (fun a => a / (rs.map (fun x => x.amount)).sum * 100) := by
      rw [List.map_map]; rfl
    rw [hmm, list_sum_div_mul, div_self (ne_of_gt hTpos), one_mul]
    norm_num

/-- C7 witness: a concrete two-record portfolio gets allocations 25 and 75,
summing to 100 within tolerance. -/
theorem build_portfolio_allocations_witness :
    ([⟨"A", 1, "Stock"⟩, ⟨"B", 3, "ETF"⟩] : List PortfolioRecord) ≠ [] ∧
    (∀ r ∈ ([⟨"A", 1, "Stock"⟩, ⟨"B", 3, "ETF"⟩] : List PortfolioRecord), 0 < r.amount) ∧
    build_portfolio [⟨"A", 1, "Stock"⟩, ⟨"B", 3, "ETF"⟩] =
      .ok [(⟨"A", 1, "Stock"⟩, 25), (⟨"B", 3, "ETF"⟩, 75)] := by
  refine ⟨by decide, by decide, ?_⟩
  have h := (build_portfolio_allocations [⟨"A", 1, "Stock"⟩, ⟨"B", 3, "ETF"⟩]).2.2
    (by decide) (by decide)
  exact h.1.trans (by norm_num)

/-- C5: identify_stress_periods fails with the EmptyDataError kind on an
empty series, and otherwise returns exactly the dates whose return is at or
below the sample q-quantile of the series (inclusive comparison). -/
theorem identify_stress_periods_spec (s : List (Nat × ℚ)) (q : ℚ)
    (hq0 : 0 ≤ q) (hq1 : q ≤ 1) :
    (s = [] → identify_stress_periods s q = .error .portfolioReturnsEmpty) ∧
    (s ≠ [] → ∃ r, identify_stress_periods s q = .ok r ∧
      ∀ d : Nat, d ∈ r ↔ ∃ v : ℚ, (d, v) ∈ s ∧
        v ≤ sampleQuantile (s.map Prod.snd) q) := by
  constructor
  · intro h; subst h; rfl
  · intro h
    have hne : s.isEmpty = false := by
      cases s with
      | nil => exact absurd rfl h
      | cons a l => rfl
    refine ⟨(s.filter (fun p =>
        decide (p.2 ≤ sampleQuantile (s.map Prod.snd) q))).map Prod.fst, ?_, ?_⟩
    · simp [identify_stress_periods, hne]
    · intro d
      constructor
      · intro hd
        obtain ⟨p, hp, hpd⟩ := List.mem_map.mp hd
        obtain ⟨hps, hple⟩ := List.mem_filter.mp hp
        exact ⟨p.2, by rw [← hpd]; simpa using hps, by simpa using hple⟩
      · rintro ⟨v, hv, hle⟩
        exact List.mem_map.mpr ⟨(d, v), List.mem_filter.mpr ⟨hv, by simpa using hle⟩, rfl⟩

/-- C5 witness: on the two-point series [(0, 1), (1, -1)] with q = 0.10 the
stress set characterization holds. -/
theorem identify_stress_periods_spec_witness :
    ([(0, (1:ℚ)), (1, -1)] : List (Nat × ℚ)) ≠ [] ∧
    ∃ r, identify_stress_periods [(0, (1:ℚ)), (1, -1)] (1/10) = .ok r ∧
      ∀ d : Nat, d ∈ r ↔ ∃ v : ℚ, (d, v) ∈ ([(0, (1:ℚ)), (1, -1)] : List (Nat × ℚ)) ∧
        v ≤ sampleQuantile (([(0, (1:ℚ)), (1, -1)] : List (Nat × ℚ)).map Prod.snd) (1/10) := by
  refine ⟨by decide, ?_⟩
  exact (identify_stress_periods_spec [(0, (1:ℚ)), (1, -1)] (1/10)
    (by norm_num) (by norm_num)).2 (by decide)

/-- C4 counterexample: with returns columns A and B but a weight only for A,
the reindexed NaN weight propagates through the whole dot product, so the
portfolio return is NaN on every date; the claim would instead give B a
zero contribution and return 1/100 * 60/100 = 3/500. -/
theorem compute_portfolio_returns_missing_weight_cex :
    compute_portfolio_returns ⟨["A", "B"], [0], [[1/100, 2/100]]⟩ [("A", 60)] = [(0, none)] ∧
    compute_portfolio_returns ⟨["A", "B"], [0], [[1/100, 2/100]]⟩ [("A", 60)] ≠
      [(0, some (3/500))] := by
  have h : compute_portfolio_returns ⟨["A", "B"], [0], [[1/100, 2/100]]⟩ [("A", 60)] =
      [(0, none)] := by
    norm_num +decide [compute_portfolio_returns, dotRow, dotStep, List.lookup]
  exact ⟨h, by rw [h]; simp⟩

/-- C4 (amended): compute_portfolio_returns re-aligns the weights to the
returns' columns; when every column has a weight, the result is, per date,
the weighted sum of returns[ticker] * weight[ticker] / 100; but when some
column has no weight, the reindexed NaN weight propagates and every date's
portfolio return is NaN, not a zero contribution. -/
theorem compute_portfolio_returns_spec (ar : DFrame) (weights : List (String × ℚ))
    (hr : ∀ r ∈ ar.rows, r.length = ar.cols.length) :
    ((∀ c ∈ ar.cols, (List.lookup c weights).isSome = true) →
      compute_portfolio_returns ar weights =
        ar.dates.zip (ar.rows.map (fun row =>
          some (((row.zip (ar.cols.map (fun c => List.lookup c weights))).map
            (fun p => p.1 * (p.2.getD 0 / 100))).sum)))) ∧
    ((∃ c ∈ ar.cols, List.lookup c weights = none) →
      ∀ pr ∈ compute_portfolio_returns ar weights, pr.2 = none) := by
  constructor
  · intro hall
    simp only [compute_portfolio_returns]
    congr 1
    apply List.map_congr_left
    intro row hrow
    apply dotRow_all_some
    intro p hp
    have h2 := (List.of_mem_zip hp).2
    obtain ⟨c, hc, hcp⟩ := List.mem_map.mp h2
    rw [← hcp]
    exact hall c hc
  · rintro ⟨c, hc, hnone⟩
    intro pr hpr
    unfold compute_portfolio_returns at hpr
    have h2 := (List.of_mem_zip hpr).2
    obtain ⟨row, hrow, hdr⟩ := List.mem_map.mp h2
    rw [← hdr]
    obtain ⟨p, hp, hp2⟩ := zip_map_mem_none ar.cols row
      (fun c => List.lookup c weights) c hc (hr row hrow) hnone
    exact foldl_dotStep_mem_none _ _ ⟨p, hp, hp2⟩

/-- C4 witness: with weights for both columns, the portfolio return is the
weighted sum 1/100 * 60/100 + 2/100 * 40/100 = 7/500. -/
theorem compute_portfolio_returns_spec_witness :
    (∀ c ∈ (["A", "B"] : List String),
      (List.lookup c [("A", (60:ℚ)), ("B", 40)]).isSome = true) ∧
    compute_portfolio_returns ⟨["A", "B"], [0], [[1/100, 2/100]]⟩ [("A", 60), ("B", 40)] =
      [(0, some (7/500))] := by
  refine ⟨by decide, ?_⟩
  have h := (compute_portfolio_returns_spec ⟨["A", "B"], [0], [[1/100, 2/100]]⟩
    [("A", 60), ("B", 40)] (by decide)).1 (by decide)
  refine h.trans ?_
  norm_num [List.lookup, show (("B" == "A") = false) from rfl,
    show (("A" == "A") = true) from rfl, show (("B" == "B") = true) from rfl]

/-- C6 counterexample: on the non-empty NaN-free 3-row price table
[[0], [0], [1]] the second pct_change row is 0/0, a NaN, so dropna removes
it as well as the first row and compute_asset_returns returns 1 row, not
N - 1 = 2 (pandas keeps the third row, whose value is an infinity). -/
theorem compute_asset_returns_zero_price_cex :
    compute_asset_returns ⟨["A"], [0, 1, 2], [[0], [0], [1]]⟩ = .ok ⟨["A"], [2], [[0]]⟩ ∧
    (⟨["A"], [2], [[0]]⟩ : DFrame).rows.length ≠ 3 - 1 := by
  refine ⟨?_, by decide⟩
  norm_num +decide [compute_asset_returns, pctChangeRows, pctAux, pctCell, dropnaRows,
    DFrame.isEmpty]

/-- C6 (amended): on a NaN-free price table with no zero entries,
compute_asset_returns drops exactly the first (all-NaN) pct_change row and
returns the per-column period-over-period fractional changes, N - 1 rows
from an N-row table; it fails with the EmptyDataError kind when the input
frame is empty and when the returns frame comes out empty (single-row
input). -/
theorem compute_asset_returns_spec (p : DFrame)
    (hnz : ∀ r ∈ p.rows, ∀ x ∈ r, x ≠ 0)
    (hd : p.dates.length = p.rows.length)
    (hr : ∀ r ∈ p.rows, r.length = p.cols.length) :
    (p.isEmpty = true → compute_asset_returns p = .error .priceDataEmpty) ∧
    (p.rows.length = 1 → p.isEmpty = false →
      compute_asset_returns p = .error .returnsDataEmpty) ∧
    (2 ≤ p.rows.length → p.cols ≠ [] →
      compute_asset_returns p = .ok ⟨p.cols, p.dates.drop 1,
        (p.rows.zip p.rows.tail).map
          (fun pr => List.zipWith (fun a b => (b - a) / a) pr.1 pr.2)⟩ ∧
      ((p.rows.zip p.rows.tail).map
          (fun pr => List.zipWith (fun a b => (b - a) / a) pr.1 pr.2)).length =
        p.rows.length - 1) := by
  refine ⟨?_, ?_, ?_⟩
  · intro h; simp [compute_asset_returns, h]
  · intro h1 hne
    obtain ⟨r0, hrs⟩ : ∃ r0, p.rows = [r0] := by
      cases hp : p.rows with
      | nil => rw [hp] at h1; cases h1
      | cons a l =>
        cases l with
        | nil => exact ⟨a, rfl⟩
        | cons b l2 => rw [hp] at h1; simp at h1
    obtain ⟨d0, hds⟩ : ∃ d0, p.dates = [d0] := by
      rw [hrs] at hd
      cases hp : p.dates with
      | nil => rw [hp] at hd; simp at hd
      | cons a l =>
        cases l with
        | nil => exact ⟨a, rfl⟩
        | cons b l2 => rw [hp] at hd; simp at hd
    have hcne : p.cols.isEmpty = false := by
      unfold DFrame.isEmpty at hne
      rw [hrs] at hne
      simpa using hne
    obtain ⟨x, xs, hr0⟩ : ∃ x xs, r0 = x :: xs := by
      have hl := hr r0 (by rw [hrs]; exact List.mem_cons_self r0 [])
      cases hr0c : r0 with
      | nil =>
        rw [hr0c] at hl
        cases hc : p.cols with
        | nil => rw [hc] at hcne; simp at hcne
        | cons c cs => rw [hc] at hl; simp at hl
      | cons x xs => exact ⟨x, xs, rfl⟩
    have hcne2 : p.cols ≠ [] := by
      intro hc; rw [hc] at hcne; simp at hcne
    simp [compute_asset_returns, hne, hrs, hds, hr0, pctChangeRows, pctAux,
      dropnaRows, DFrame.isEmpty, hcne2]
  · intro h2 hcne
    obtain ⟨r0, rest, hrs⟩ : ∃ r0 rest, p.rows = r0 :: rest := by
      cases hp : p.rows with
      | nil => rw [hp] at h2; simp at h2
      | cons a l => exact ⟨a, l, rfl⟩
    obtain ⟨d0, ds, hds⟩ : ∃ d0 ds, p.dates = d0 :: ds := by
      rw [hrs] at hd
      cases hp : p.dates with
      | nil => rw [hp] at hd; simp at hd
      | cons a l => exact ⟨a, l, rfl⟩
    have hrestne : rest ≠ [] := by
      intro h; rw [hrs, h] at h2; simp at h2
    have hlen1 : ds.length = rest.length := by
      rw [hrs, hds] at hd; simpa using hd
    have hne : p.isEmpty = false := by
      unfold DFrame.isEmpty
      rw [hrs]
      cases hc : p.cols with
      | nil => exact absurd hc hcne
      | cons c cs => rfl
    have hr0ne : r0 ≠ [] := by
      have hl := hr r0 (by rw [hrs]; exact List.mem_cons_self r0 rest)
      intro h0; rw [h0] at hl
      exact hcne (List.length_eq_zero.mp hl.symm)
    have hfalse : ((r0.map (fun _ => (none : Option ℚ))).all Option.isSome) = false := by
      cases r0 with
      | nil => exact absurd rfl hr0ne
      | cons x xs => simp
    have hkept : dropnaRows ((d0 :: ds).zip (pctChangeRows (r0 :: rest))) =
        ds.zip (((r0 :: rest).zip rest).map
          (fun pr => List.zipWith (fun a b => (b - a) / a) pr.1 pr.2)) := by
      rw [pctChangeRows, List.zip_cons_cons, dropnaRows, if_neg (by rw [hfalse]; simp)]
      exact dropna_pctAux rest r0 ds
        (hnz r0 (by rw [hrs]; exact List.mem_cons_self r0 rest))
        (fun r hr2 => hnz r (by rw [hrs]; exact List.mem_cons_of_mem r0 hr2))
    have hXlen : (((r0 :: rest).zip rest).map
        (fun pr => List.zipWith (fun a b => (b - a) / a) pr.1 pr.2)).length = rest.length := by
      simp [List.length_zip]
    have hfst : ((ds.zip (((r0 :: rest).zip rest).map
        (fun pr => List.zipWith (fun a b => (b - a) / a) pr.1 pr.2))).map Prod.fst) = ds :=
      List.map_fst_zip _ _ (by rw [hXlen, hlen1])
    have hsnd : ((ds.zip (((r0 :: rest).zip rest).map
        (fun pr => List.zipWith (fun a b => (b - a) / a) pr.1 pr.2))).map Prod.snd) =
        ((r0 :: rest).zip rest).map
          (fun pr => List.zipWith (fun a b => (b - a) / a) pr.1 pr.2) :=
      List.map_snd_zip _ _ (by rw [hXlen, hlen1])
    obtain ⟨r1, rest2, hrest⟩ : ∃ r1 rest2, rest = r1 :: rest2 := by
      cases rest with
      | nil => exact absurd rfl hrestne
      | cons a l => exact ⟨a, l, rfl⟩
    obtain ⟨c0, cs, hcols⟩ : ∃ c0 cs, p.cols = c0 :: cs := by
      cases hc : p.cols with
      | nil => exact absurd hc hcne
      | cons a l => exact ⟨a, l, rfl⟩
    constructor
    · simp only [compute_asset_returns, hne, Bool.false_eq_true, if_false, hrs, hds]
      rw [hkept]
      have hemp : (DFrame.mk p.cols
          ((ds.zip (((r0 :: rest).zip rest).map
            (fun pr => List.zipWith (fun a b => (b - a) / a) pr.1 pr.2))).map Prod.fst)
          ((ds.zip (((r0 :: rest).zip rest).map
            (fun pr => List.zipWith (fun a b => (b - a) / a) pr.1 pr.2))).map Prod.snd)).isEmpty
          = false := by
        unfold DFrame.isEmpty
        rw [hsnd, hrest, hcols]
        rfl
      rw [if_neg (by simp [hemp])]
      rw [hfst, hsnd]
      rfl
    · rw [hrs]
      simp [List.length_zip]

/-- C6 witness: the strictly positive 3-row table [[1], [2], [4]] yields the
two fractional changes 1 and 1 on the last two dates. -/
theorem compute_asset_returns_spec_witness :
    (2 ≤ ([[(1:ℚ)], [2], [4]] : List (List ℚ)).length) ∧
    compute_asset_returns ⟨["A"], [0, 1, 2], [[1], [2], [4]]⟩ =
      .ok ⟨["A"], [1, 2], [[1], [1]]⟩ := by
  refine ⟨by decide, ?_⟩
  have h := (compute_asset_returns_spec ⟨["A"], [0, 1, 2], [[1], [2], [4]]⟩
    (by decide) (by decide) (by decide)).2.2 (by decide) (by decide)
  refine h.1.trans ?_
  norm_num [List.zip, List.zipWith]

/-- C8 (modelled from the spec, horizon_risk_summary being absent from the
source tree): the summary fails with the InsufficientDataError kind when no
configured horizon fits the available history, and otherwise reports one
row per configured horizon carrying the minimum compounded return over all
overlapping rolling windows of that length and the fraction of windows
with negative compounded return. -/
theorem horizon_risk_summary_spec (rs : List (Nat × ℚ)) (horizons : List (String × Nat)) :
    ((∀ h ∈ horizons, ¬ (0 < h.2 ∧ h.2 < rs.length)) →
      horizon_risk_summary rs horizons = .error .insufficientHistory) ∧
    ((∀ h ∈ horizons, 0 < h.2 ∧ h.2 < rs.length) → horizons ≠ [] →
      ∃ out : List HorizonRow, horizon_risk_summary rs horizons = .ok out ∧
        out.length = horizons.length ∧
        ∀ (i : Nat) (lbl : String) (wl : Nat), horizons[i]? = some (lbl, wl) →
          ∃ row : HorizonRow, out[i]? = some row ∧ row.label = lbl ∧
            row.worstReturn ∈ (windowsOf wl (rs.map Prod.snd)).map compoundWindow ∧
            (∀ x ∈ (windowsOf wl (rs.map Prod.snd)).map compoundWindow,
              row.worstReturn ≤ x) ∧
            row.probLoss =
              ((((windowsOf wl (rs.map Prod.snd)).map compoundWindow).filter
                (fun x => x < 0)).length : ℚ) /
                (((windowsOf wl (rs.map Prod.snd)).map compoundWindow).length : ℚ)) := by
  constructor
  · intro hno
    have hfil : (horizons.filter
        (fun h => decide (0 < h.2 ∧ h.2 < (rs.map Prod.snd).length))).isEmpty = true := by
      rw [List.isEmpty_iff, List.filter_eq_nil_iff]
      intro a ha
      simp only [decide_eq_true_eq, List.length_map, not_and, not_lt]
      intro h0
      have := hno a ha
      simp only [not_and, not_lt] at this
      exact this h0
    simp only [horizon_risk_summary]
    rw [if_pos hfil]
  · intro hall hne
    have hfil : horizons.filter
        (fun h => decide (0 < h.2 ∧ h.2 < (rs.map Prod.snd).length)) = horizons := by
      rw [List.filter_eq_self]
      intro a ha
      simp only [decide_eq_true_eq, List.length_map]
      exact hall a ha
    have hnef : (horizons.filter
        (fun h => decide (0 < h.2 ∧ h.2 < (rs.map Prod.snd).length))).isEmpty = false := by
      rw [hfil]
      cases horizons with
      | nil => exact absurd rfl hne
      | cons a l => rfl
    refine ⟨horizons.map (fun h =>
      ⟨h.1, minQ ((windowsOf h.2 (rs.map Prod.snd)).map compoundWindow),
        ((((windowsOf h.2 (rs.map Prod.snd)).map compoundWindow).filter
          (fun x => x < 0)).length : ℚ) /
          (((windowsOf h.2 (rs.map Prod.snd)).map compoundWindow).length : ℚ)⟩), ?_, by simp, ?_⟩
    · simp only [horizon_risk_summary]
      rw [if_neg (by rw [hnef]; simp), hfil]
    · intro i lbl wl hi
      have hmem : (lbl, wl) ∈ horizons := List.getElem?_mem hi
      have hwl := hall (lbl, wl) hmem
      have hcws : (windowsOf wl (rs.map Prod.snd)).map compoundWindow ≠ [] := by
        apply List.ne_nil_of_length_pos
        simp only [List.length_map, windowsOf, List.length_range]
        omega
      refine ⟨⟨lbl, minQ ((windowsOf wl (rs.map Prod.snd)).map compoundWindow),
        ((((windowsOf wl (rs.map Prod.snd)).map compoundWindow).filter
          (fun x => x < 0)).length : ℚ) /
          (((windowsOf wl (rs.map Prod.snd)).map compoundWindow).length : ℚ)⟩,
        ?_, rfl, minQ_mem _ hcws, minQ_le _, rfl⟩
      rw [List.getElem?_map, hi]
      rfl

/-- C8 witness: a three-point return series with a single 2-day horizon
produces the worst compounded return and loss probability row. -/
theorem horizon_risk_summary_spec_witness :
    (∀ h ∈ ([("W", 2)] : List (String × Nat)), 0 < h.2 ∧
      h.2 < ([(0, (1:ℚ)/10), (1, -1/2), (2, 1/10)] : List (Nat × ℚ)).length) ∧
    ∃ out : List HorizonRow, horizon_risk_summary [(0, (1:ℚ)/10), (1, -1/2), (2, 1/10)] [("W", 2)] = .ok out ∧
      out.length = ([("W", 2)] : List (String × Nat)).length ∧
      ∀ (i : Nat) (lbl : String) (wl : Nat), ([("W", 2)] : List (String × Nat))[i]? = some (lbl, wl) →
        ∃ row : HorizonRow, out[i]? = some row ∧ row.label = lbl ∧
          row.worstReturn ∈ (windowsOf wl
            (([(0, (1:ℚ)/10), (1, -1/2), (2, 1/10)] : List (Nat × ℚ)).map Prod.snd)).map
              compoundWindow ∧
          (∀ x ∈ (windowsOf wl
            (([(0, (1:ℚ)/10), (1, -1/2), (2, 1/10)] : List (Nat × ℚ)).map Prod.snd)).map
              compoundWindow, row.worstReturn ≤ x) ∧
          row.probLoss =
            ((((windowsOf wl
              (([(0, (1:ℚ)/10), (1, -1/2), (2, 1/10)] : List (Nat × ℚ)).map Prod.snd)).map
                compoundWindow).filter (fun x => x < 0)).length : ℚ) /
              (((windowsOf wl
                (([(0, (1:ℚ)/10), (1, -1/2), (2, 1/10)] : List (Nat × ℚ)).map Prod.snd)).map
                  compoundWindow).length : ℚ) := by
  refine ⟨by decide, ?_⟩
  exact (horizon_risk_summary_spec [(0, (1:ℚ)/10), (1, -1/2), (2, 1/10)] [("W", 2)]).2
    (by decide) (by decide)

/- ================================================================
   Lemmas about the data-loader model
   ================================================================ -/

theorem padTo_length (n : Nat) (s : Series) : (padTo n s).length = n := by
  simp [padTo]

theorem ffillFrom_length : ∀ (s : Series) (last : Option ℚ),
    (ffillFrom last s).length = s.length
  | [], _ => rfl
  | some x :: rest, last => by simp [ffillFrom, ffillFrom_length rest]
  | none :: rest, last => by simp [ffillFrom, ffillFrom_length rest]

theorem ffillFrom_isSome_last : ∀ (s : Series) (last : Option ℚ) (i : Nat),
    i < s.length → last.isSome = true →
    ((ffillFrom last s).getD i none).isSome = true := by
  intro s
  induction s with
  | nil => intro last i hi _; simp at hi
  | cons a rest ih =>
    intro last i hi hl
    cases a with
    | some x =>
      cases i with
      | zero => simp [ffillFrom]
      | succ i2 =>
        simp only [ffillFrom, List.getD_cons_succ]
        exact ih (some x) i2 (by simpa using hi) rfl
    | none =>
      cases i with
      | zero => simpa [ffillFrom] using hl
      | succ i2 =>
        simp only [ffillFrom, List.getD_cons_succ]
        exact ih last i2 (by simpa using hi) hl

theorem ffillFrom_isSome_of_earlier : ∀ (s : Series) (last : Option ℚ) (i j : Nat),
    j ≤ i → i < s.length → (s.getD j none).isSome = true →
    ((ffillFrom last s).getD i none).isSome = true := by
  intro s
  induction s with
  | nil => intro last i j _ hi _; simp at hi
  | cons a rest ih =>
    intro last i j hji hi hj
    cases a with
    | some x =>
      cases i with
      | zero => simp [ffillFrom]
      | succ i2 =>
        simp only [ffillFrom, List.getD_cons_succ]
        exact ffillFrom_isSome_last rest (some x) i2 (by simpa using hi) rfl
    | none =>
      cases j with
      | zero => simp at hj
      | succ j2 =>
        cases i with
        | zero => simp at hji
        | succ i2 =>
          simp only [ffillFrom, List.getD_cons_succ]
          exact ih last i2 j2 (by omega) (by simpa using hi) (by simpa using hj)

theorem firstValid_spec : ∀ (s : Series) (k : Nat), firstValid s = some k →
    k < s.length ∧ (s.getD k none).isSome = true := by
  intro s
  induction s with
  | nil => intro k h; cases h
  | cons a rest ih =>
    intro k h
    cases a with
    | some x =>
      have hk : k = 0 := by
        simp [firstValid] at h
        exact h.symm
      subst hk
      simp
    | none =>
      simp only [firstValid, Option.map_eq_some'] at h
      obtain ⟨k2, h2, hk⟩ := h
      obtain ⟨hlt, hs⟩ := ih k2 h2
      subst hk
      constructor
      · simpa using hlt
      · simpa using hs

theorem firstValid_of_not_all_none : ∀ s : Series, s.all Option.isNone = false →
    ∃ k, firstValid s = some k := by
  intro s
  induction s with
  | nil => intro h; simp at h
  | cons a rest ih =>
    intro h
    cases a with
    | some x => exact ⟨0, rfl⟩
    | none =>
      simp only [List.all_cons, Option.isNone_none, Bool.true_and] at h
      obtain ⟨k, hk⟩ := ih h
      exact ⟨k + 1, by simp [firstValid, hk]⟩

theorem foldl_max_init_le (l : List Nat) : ∀ a : Nat, a ≤ l.foldl max a := by
  induction l with
  | nil => intro a; exact le_refl a
  | cons y ys ih => intro a; exact le_trans (le_max_left a y) (ih (max a y))

theorem foldl_max_mem_le (l : List Nat) : ∀ a x, x ∈ l → x ≤ l.foldl max a := by
  induction l with
  | nil => intro a x hx; cases hx
  | cons y ys ih =>
    intro a x hx
    rcases List.mem_cons.mp hx with h | h
    · subst h; exact le_trans (le_max_right a x) (foldl_max_init_le ys (max a x))
    · exact ih (max a y) x h

theorem foldl_max_lt (l : List Nat) : ∀ a n : Nat, a < n → (∀ x ∈ l, x < n) →
    l.foldl max a < n := by
  induction l with
  | nil => intro a n ha _; exact ha
  | cons y ys ih =>
    intro a n ha hall
    exact ih (max a y) n (max_lt ha (hall y (List.mem_cons_self y ys)))
      (fun x hx => hall x (List.mem_cons_of_mem y hx))

theorem mem_dedupFirstAux : ∀ (l seen : List String) (x : String),
    x ∈ dedupFirstAux seen l ↔ (x ∈ l ∧ x ∉ seen) := by
  intro l
  induction l with
  | nil => intro seen x; simp [dedupFirstAux]
  | cons t rest ih =>
    intro seen x
    by_cases ht : t ∈ seen
    · rw [dedupFirstAux, if_pos ht, ih seen x]
      constructor
      · rintro ⟨hr, hn⟩; exact ⟨List.mem_cons_of_mem t hr, hn⟩
      · rintro ⟨hor, hn⟩
        rcases List.mem_cons.mp hor with h | h
        · subst h; exact absurd ht hn
        · exact ⟨h, hn⟩
    · rw [dedupFirstAux, if_neg ht]
      constructor
      · intro hmem
        rcases List.mem_cons.mp hmem with h | h
        · subst h; exact ⟨List.mem_cons_self x rest, ht⟩
        · rw [ih (t :: seen) x] at h
          obtain ⟨hr, hn⟩ := h
          refine ⟨List.mem_cons_of_mem t hr, fun hseen => hn (List.mem_cons_of_mem t hseen)⟩
      · rintro ⟨hor, hn⟩
        rcases List.mem_cons.mp hor with h | h
        · subst h; exact List.mem_cons_self x _
        · by_cases hxt : x = t
          · subst hxt; exact List.mem_cons_self x _
          · refine List.mem_cons_of_mem t ?_
            rw [ih (t :: seen) x]
            exact ⟨h, fun hmem => by
              rcases List.mem_cons.mp hmem with h2 | h2
              · exact hxt h2
              · exact hn h2⟩

theorem nodup_dedupFirstAux : ∀ (l seen : List String), (dedupFirstAux seen l).Nodup := by
  intro l
  induction l with
  | nil => intro seen; simp [dedupFirstAux]
  | cons t rest ih =>
    intro seen
    by_cases ht : t ∈ seen
    · rw [dedupFirstAux, if_pos ht]; exact ih seen
    · rw [dedupFirstAux, if_neg ht]
      rw [List.nodup_cons]
      constructor
      · intro hmem
        rw [mem_dedupFirstAux] at hmem
        exact hmem.2 (List.mem_cons_self t seen)
      · exact ih (t :: seen)

theorem mem_dedupFirst (l : List String) (x : String) : x ∈ dedupFirst l ↔ x ∈ l := by
  simp [dedupFirst, mem_dedupFirstAux]

theorem nodup_dedupFirst (l : List String) : (dedupFirst l).Nodup :=
  nodup_dedupFirstAux l []

theorem dedupFirst_ne_nil (l : List String) (h : l ≠ []) : dedupFirst l ≠ [] := by
  cases l with
  | nil => exact absurd rfl h
  | cons a rest =>
    intro hd
    have : a ∈ dedupFirst (a :: rest) := (mem_dedupFirst _ a).mpr (List.mem_cons_self a rest)
    rw [hd] at this
    cases this

theorem idxmaxGo_mem : ∀ (l : List (String × Option Nat)) (best : Option (String × Nat))
    (p : String × Nat), idxmaxGo best l = some p →
    best = some p ∨ (p.1, some p.2) ∈ l := by
  intro l
  induction l with
  | nil => intro best p h; exact Or.inl (by simpa [idxmaxGo] using h)
  | cons x rest ih =>
    intro best p h
    obtain ⟨t, v⟩ := x
    cases v with
    | none =>
      rcases ih best p (by simpa [idxmaxGo] using h) with h2 | h2
      · exact Or.inl h2
      · exact Or.inr (List.mem_cons_of_mem _ h2)
    | some v =>
      cases best with
      | none =>
        rcases ih (some (t, v)) p (by simpa [idxmaxGo] using h) with h2 | h2
        · have hp : p = (t, v) := by injection h2 with h3; exact h3.symm
          subst hp
          exact Or.inr (List.mem_cons_self _ _)
        · exact Or.inr (List.mem_cons_of_mem _ h2)
      | some b =>
        obtain ⟨bt, bv⟩ := b
        by_cases hlt : bv < v
        · rcases ih (some (t, v)) p (by simpa [idxmaxGo, hlt] using h) with h2 | h2
          · have hp : p = (t, v) := by injection h2 with h3; exact h3.symm
            subst hp
            exact Or.inr (List.mem_cons_self _ _)
          · exact Or.inr (List.mem_cons_of_mem _ h2)
        · rcases ih (some (bt, bv)) p (by simpa [idxmaxGo, hlt] using h) with h2 | h2
          · exact Or.inl h2
          · exact Or.inr (List.mem_cons_of_mem _ h2)

theorem idxmaxO_mem (l : List (String × Option Nat)) (p : String) :
    idxmaxO l = some p → ∃ v, (p, some v) ∈ l := by
  intro h
  simp only [idxmaxO, Option.map_eq_some'] at h
  obtain ⟨⟨t, v⟩, hgo, hp⟩ := h
  rcases idxmaxGo_mem l none (t, v) hgo with h2 | h2
  · cases h2
  · exact ⟨v, by rw [← hp]; exact h2⟩

theorem filter_not_shrink (l : List String) (p : String → Bool) (h : l.filter p ≠ []) :
    (l.filter (fun t => !p t)).length < l.length := by
  induction l with
  | nil => simp at h
  | cons a as ih =>
    by_cases ha : p a = true
    · have hle : (as.filter (fun t => !p t)).length ≤ as.length := List.length_filter_le _ _
      have hfc : (a :: as).filter (fun t => !p t) = as.filter (fun t => !p t) := by
        simp [List.filter_cons, ha]
      rw [hfc, List.length_cons]
      omega
    · have h2 : as.filter p ≠ [] := by
        intro h3
        apply h
        simp [List.filter_cons, ha, h3]
      have h4 := ih h2
      have hna : (!p a) = true := by simp [ha]
      have hfc : (a :: as).filter (fun t => !p t) = a :: as.filter (fun t => !p t) := by
        simp [List.filter_cons, hna]
      rw [hfc, List.length_cons, List.length_cons]
      omega

theorem cleanedRows_ne_nil (mkt : Market) (working : List String)
    (hw : working ≠ []) (hn : mkt.nDates ≠ 0)
    (hflag : ∀ t ∈ working, flagTicker mkt t = false) :
    cleanedRows ((dedupFirst working).map (fun t => ffill ((colOf mkt t).getD [])))
      mkt.nDates ≠ [] := by
  have hcol : ∀ t ∈ working, ∃ c, colOf mkt t = some c ∧ c.length = mkt.nDates ∧
      ∃ k, firstValid c = some k := by
    intro t ht
    have hf := hflag t ht
    unfold flagTicker at hf
    cases hc : colOf mkt t with
    | none => rw [hc] at hf; simp at hf
    | some c =>
      rw [hc] at hf
      have hlen : c.length = mkt.nDates := by
        unfold colOf at hc
        obtain ⟨s0, hs0, hc2⟩ := Option.map_eq_some'.mp hc
        rw [← hc2]
        exact padTo_length _ _
      have hall : c.all Option.isNone = false := by simpa using hf
      exact ⟨c, rfl, hlen, firstValid_of_not_all_none c hall⟩
  have hmemw : ∀ t ∈ dedupFirst working, t ∈ working :=
    fun t ht => (mem_dedupFirst working t).mp ht
  have hkbound : ∀ x ∈ (dedupFirst working).map
      (fun t => (firstValid ((colOf mkt t).getD [])).getD 0), x < mkt.nDates := by
    intro x hx
    obtain ⟨t, ht, hxt⟩ := List.mem_map.mp hx
    obtain ⟨c, hc, hlen, k, hk⟩ := hcol t (hmemw t ht)
    have hklt := (firstValid_spec c k hk).1
    rw [← hxt, hc]
    simp only [Option.getD_some, hk]
    omega
  have hmlt : ((dedupFirst working).map
      (fun t => (firstValid ((colOf mkt t).getD [])).getD 0)).foldl max 0 < mkt.nDates :=
    foldl_max_lt _ 0 mkt.nDates (Nat.pos_of_ne_zero hn) hkbound
  have hrow : ∀ c2 ∈ (dedupFirst working).map (fun t => ffill ((colOf mkt t).getD [])),
      (c2.getD (((dedupFirst working).map
        (fun t => (firstValid ((colOf mkt t).getD [])).getD 0)).foldl max 0) none).isSome
        = true := by
    intro c2 hc2
    obtain ⟨t, ht, hct⟩ := List.mem_map.mp hc2
    obtain ⟨c, hc, hlen, k, hk⟩ := hcol t (hmemw t ht)
    obtain ⟨hklt, hksome⟩ := firstValid_spec c k hk
    have hkm : k ≤ ((dedupFirst working).map
        (fun t => (firstValid ((colOf mkt t).getD [])).getD 0)).foldl max 0 := by
      apply foldl_max_mem_le
      refine List.mem_map.mpr ⟨t, ht, ?_⟩
      rw [hc]
      simp [hk]
    rw [← hct, hc]
    simp only [Option.getD_some]
    exact ffillFrom_isSome_of_earlier c none _ k hkm (by omega) hksome
  intro hnil
  have hmem : (((dedupFirst working).map
      (fun t => (firstValid ((colOf mkt t).getD [])).getD 0)).foldl max 0,
      rowAt ((dedupFirst working).map (fun t => ffill ((colOf mkt t).getD [])))
        (((dedupFirst working).map
          (fun t => (firstValid ((colOf mkt t).getD [])).getD 0)).foldl max 0)) ∈
      cleanedRows ((dedupFirst working).map (fun t => ffill ((colOf mkt t).getD [])))
        mkt.nDates := by
    unfold cleanedRows
    refine List.mem_filter.mpr ⟨List.mem_map.mpr ⟨_, List.mem_range.mpr hmlt, rfl⟩, ?_⟩
    rw [List.all_eq_true]
    intro cell hcell
    obtain ⟨c2, hc2, hcl⟩ := List.mem_map.mp hcell
    rw [← hcl]
    exact hrow c2 hc2
  rw [hnil] at hmem
  cases hmem

theorem healStep_cases (mkt : Market) (working dropped : List String) :
    (working.isEmpty = true ∧ healStep mkt working dropped = .fail .allDropped) ∨
    (working.isEmpty = false ∧ mkt.nDates = 0 ∧
      healStep mkt working dropped = .fail .noData) ∨
    (working.isEmpty = false ∧ mkt.nDates ≠ 0 ∧
      working.filter (fun t => flagTicker mkt t) ≠ [] ∧
      healStep mkt working dropped = .next (working.filter (fun t => !flagTicker mkt t))
        (dropped ++ working.filter (fun t => flagTicker mkt t))) ∨
    (working.isEmpty = false ∧ mkt.nDates ≠ 0 ∧
      working.filter (fun t => flagTicker mkt t) = [] ∧
      cleanedRows ((dedupFirst working).map (fun t => ffill ((colOf mkt t).getD [])))
        mkt.nDates ≠ [] ∧
      healStep mkt working dropped = .done
        ⟨dedupFirst working,
          cleanedRows ((dedupFirst working).map (fun t => ffill ((colOf mkt t).getD [])))
            mkt.nDates⟩ dropped) := by
  by_cases h1 : working.isEmpty = true
  · exact Or.inl ⟨h1, by rw [healStep, if_pos h1]⟩
  · have h1f : working.isEmpty = false := by simpa using h1
    by_cases h2 : mkt.nDates = 0
    · refine Or.inr (Or.inl ⟨h1f, h2, ?_⟩)
      simp only [healStep]
      rw [if_neg h1, if_pos h2]
    · by_cases h3 : working.filter (fun t => flagTicker mkt t) = []
      · have hwne : working ≠ [] := by
          intro h; rw [h] at h1f; simp at h1f
        have hflag : ∀ t ∈ working, flagTicker mkt t = false := by
          intro t ht
          have := List.filter_eq_nil_iff.mp h3 t ht
          simpa using this
        have hcl := cleanedRows_ne_nil mkt working hwne h2 hflag
        refine Or.inr (Or.inr (Or.inr ⟨h1f, h2, h3, hcl, ?_⟩))
        simp only [healStep]
        rw [if_neg h1, if_neg h2, if_pos (by simp [h3]), if_neg (by simp [List.isEmpty_iff, hcl])]
      · refine Or.inr (Or.inr (Or.inl ⟨h1f, h2, h3, ?_⟩))
        simp only [healStep]
        rw [if_neg h1, if_neg h2, if_neg (by simp [List.isEmpty_iff, h3])]

theorem healStep_next_shrink (mkt : Market) (working dropped w d : List String)
    (h : healStep mkt working dropped = .next w d) : w.length < working.length := by
  rcases healStep_cases mkt working dropped with
    ⟨_, he⟩ | ⟨_, _, he⟩ | ⟨_, _, hfil, he⟩ | ⟨_, _, _, _, he⟩
  · rw [he] at h; cases h
  · rw [he] at h; cases h
  · rw [he] at h
    injection h with hw hd
    rw [← hw]
    exact filter_not_shrink working (fun t => flagTicker mkt t) hfil
  · rw [he] at h; cases h

theorem healStep_next_preserves (mkt : Market) (tk working dropped w d : List String)
    (h : healStep mkt working dropped = .next w d) (hinv : LoopInv tk working dropped) :
    LoopInv tk w d := by
  rcases healStep_cases mkt working dropped with
    ⟨_, he⟩ | ⟨_, _, he⟩ | ⟨_, _, hfil, he⟩ | ⟨_, _, _, _, he⟩
  · rw [he] at h; cases h
  · rw [he] at h; cases h
  · rw [he] at h
    injection h with hw hd
    subst hw; subst hd
    obtain ⟨hdisj, hwtk, hdtk, hcov⟩ := hinv
    refine ⟨?_, ?_, ?_, ?_⟩
    · intro t ht hmem
      have htw := List.mem_of_mem_filter hmem
      have hnotflag := List.of_mem_filter hmem
      rcases List.mem_append.mp ht with h4 | h4
      · exact hdisj t h4 htw
      · have hflag := List.of_mem_filter h4
        rw [hflag] at hnotflag
        cases hnotflag
    · intro t ht
      exact hwtk t (List.mem_of_mem_filter ht)
    · intro t ht
      rcases List.mem_append.mp ht with h4 | h4
      · exact hdtk t h4
      · exact hwtk t (List.mem_of_mem_filter h4)
    · intro t ht
      rcases hcov t ht with h4 | h4
      · by_cases hf : flagTicker mkt t = true
        · exact Or.inr (List.mem_append_right _ (List.mem_filter.mpr ⟨h4, hf⟩))
        · refine Or.inl (List.mem_filter.mpr ⟨h4, ?_⟩)
          simp [hf]
      · exact Or.inr (List.mem_append_left _ h4)
  · rw [he] at h; cases h

theorem fetchLoop_ok (mkt : Market) (tk : List String) : ∀ (fuel : Nat)
    (working dropped : List String) (tbl : PriceTable) (dr : List String),
    LoopInv tk working dropped →
    fetchLoop mkt fuel working dropped = .ok (tbl, dr) →
    tbl.rows ≠ [] ∧ (∀ r ∈ tbl.rows, ∀ c ∈ r.2, c.isSome = true) ∧
    tbl.tickers.Nodup ∧ (∀ r ∈ tbl.rows, r.2.length = tbl.tickers.length) ∧
    (∀ t, t ∈ tbl.tickers ↔ (t ∈ tk ∧ t ∉ dr)) ∧ tbl.tickers ≠ [] := by
  intro fuel
  induction fuel with
  | zero =>
    intro working dropped tbl dr hinv h
    rw [fetchLoop] at h
    cases h
  | succ n ih =>
    intro working dropped tbl dr hinv h
    rw [fetchLoop] at h
    rcases healStep_cases mkt working dropped with
      ⟨hw, he⟩ | ⟨_, _, he⟩ | ⟨_, _, hfil, he⟩ | ⟨hw, _, hfil, hcl, he⟩
    · rw [he] at h; cases h
    · rw [he] at h; cases h
    · rw [he] at h
      exact ih _ _ tbl dr (healStep_next_preserves mkt tk working dropped _ _ he hinv) h
    · rw [he] at h
      injection h with h2
      injection h2 with htbl hdr
      subst htbl; subst hdr
      have hwne : working ≠ [] := by
        intro h0; rw [h0] at hw; cases hw
      obtain ⟨hdisj, hwtk, hdtk, hcov⟩ := hinv
      refine ⟨hcl, ?_, nodup_dedupFirst working, ?_, ?_, dedupFirst_ne_nil working hwne⟩
      · intro r hr c hc
        have hp := List.of_mem_filter hr
        rw [List.all_eq_true] at hp
        exact hp c hc
      · intro r hr
        have hm := List.mem_of_mem_filter hr
        obtain ⟨i, hi, hri⟩ := List.mem_map.mp hm
        rw [← hri]
        simp [rowAt]
      · intro t
        rw [mem_dedupFirst]
        constructor
        · intro ht
          exact ⟨hwtk t ht, fun hd2 => hdisj t hd2 ht⟩
        · rintro ⟨htk, hnd⟩
          rcases hcov t htk with h4 | h4
          · exact h4
          · exact absurd h4 hnd

theorem loopIters_le (mkt : Market) : ∀ (fuel : Nat) (working dropped : List String),
    loopIters mkt fuel working dropped ≤ fuel ∧
    loopIters mkt fuel working dropped ≤ working.length + 1 := by
  intro fuel
  induction fuel with
  | zero =>
    intro working dropped
    rw [loopIters]
    exact ⟨Nat.le_refl 0, Nat.zero_le _⟩
  | succ n ih =>
    intro working dropped
    cases hstep : healStep mkt working dropped with
    | fail e =>
      have hred : loopIters mkt (n + 1) working dropped = 1 := by rw [loopIters, hstep]
      rw [hred]
      exact ⟨by omega, by omega⟩
    | done tbl dr =>
      have hred : loopIters mkt (n + 1) working dropped = 1 := by rw [loopIters, hstep]
      rw [hred]
      exact ⟨by omega, by omega⟩
    | next w d =>
      have hred : loopIters mkt (n + 1) working dropped = loopIters mkt n w d + 1 := by
        rw [loopIters, hstep]
      have hsh := healStep_next_shrink mkt working dropped w d hstep
      obtain ⟨hf, hl⟩ := ih w d
      rw [hred]
      exact ⟨by omega, by omega⟩

/-- C1: whenever fetch_price_data returns successfully, the price table is
non-empty, contains no NaN cell, has exactly one column per surviving
ticker (the columns are duplicate-free and are exactly the initial tickers
not recorded as dropped, and every row has one cell per column), and the
dropped list is disjoint from the table's columns. -/
theorem fetch_price_data_contract (mkt : Market) (tickers : List String)
    (tbl : PriceTable) (dropped : List String)
    (h : fetch_price_data mkt tickers = .ok (tbl, dropped)) :
    tbl.rows ≠ [] ∧
    (∀ r ∈ tbl.rows, ∀ c ∈ r.2, c.isSome = true) ∧
    tbl.tickers.Nodup ∧
    (∀ r ∈ tbl.rows, r.2.length = tbl.tickers.length) ∧
    (∀ t, t ∈ tbl.tickers ↔ (t ∈ tickers ∧ t ∉ dropped)) ∧
    (∀ t ∈ dropped, t ∉ tbl.tickers) := by
  unfold fetch_price_data at h
  by_cases hne : tickers.isEmpty = true
  · rw [if_pos hne] at h; cases h
  · rw [if_neg hne] at h
    have hinv : LoopInv tickers tickers [] :=
      ⟨by simp, fun t ht => ht, by simp, fun t ht => Or.inl ht⟩
    obtain ⟨h1, h2, h3, h4, h5, h6⟩ :=
      fetchLoop_ok mkt tickers tickers.length tickers [] tbl dropped hinv h
    exact ⟨h1, h2, h3, h4, h5, fun t ht hmem => ((h5 t).mp hmem).2 ht⟩

/-- C1 witness: a one-ticker market with a single quote yields a concrete
successful fetch satisfying the contract. -/
theorem fetch_price_data_contract_witness :
    fetch_price_data ⟨1, fun t => if t = "A" then some [some 1] else none⟩ ["A"] =
      .ok (⟨["A"], [(0, [some 1])]⟩, []) ∧
    ((⟨["A"], [(0, [some 1])]⟩ : PriceTable).rows ≠ [] ∧
     (∀ r ∈ (⟨["A"], [(0, [some 1])]⟩ : PriceTable).rows, ∀ c ∈ r.2, c.isSome = true) ∧
     (⟨["A"], [(0, [some 1])]⟩ : PriceTable).tickers.Nodup ∧
     (∀ r ∈ (⟨["A"], [(0, [some 1])]⟩ : PriceTable).rows,
       r.2.length = (⟨["A"], [(0, [some 1])]⟩ : PriceTable).tickers.length) ∧
     (∀ t, t ∈ (⟨["A"], [(0, [some 1])]⟩ : PriceTable).tickers ↔
       (t ∈ ["A"] ∧ t ∉ ([] : List String))) ∧
     (∀ t ∈ ([] : List String), t ∉ (⟨["A"], [(0, [some 1])]⟩ : PriceTable).tickers)) := by
  have h : fetch_price_data ⟨1, fun t => if t = "A" then some [some 1] else none⟩ ["A"] =
      .ok (⟨["A"], [(0, [some 1])]⟩, []) := by decide
  exact ⟨h, fetch_price_data_contract _ ["A"] _ [] h⟩

/-- C2: every auto-heal iteration that hands control back to the loop
strictly shrinks the working ticker set, and the loop body runs at most
min(fuel, len(working) + 1) times — with the source's budget of
len(initial tickers) it therefore runs at most len(initial tickers)
iterations and can never loop forever, whatever the budget. -/
theorem fetch_retry_bounded (mkt : Market) :
    (∀ working dropped w d, healStep mkt working dropped = .next w d →
      w.length < working.length) ∧
    (∀ fuel working dropped, loopIters mkt fuel working dropped ≤ fuel ∧
      loopIters mkt fuel working dropped ≤ working.length + 1) ∧
    (∀ tickers : List String, loopIters mkt tickers.length tickers [] ≤ tickers.length) := by
  refine ⟨fun working dropped w d h => healStep_next_shrink mkt working dropped w d h,
    loopIters_le mkt, fun tickers => (loopIters_le mkt tickers.length tickers []).1⟩

/-- C2 witness: a market in which B has no data makes the first iteration
shrink the working set from two tickers to one, and the concrete run
performs no more than two iterations. -/
theorem fetch_retry_bounded_witness :
    healStep ⟨1, fun t => if t = "A" then some [some 1] else none⟩ ["A", "B"] [] =
      .next ["A"] ["B"] ∧
    (["A"] : List String).length < (["A", "B"] : List String).length ∧
    loopIters ⟨1, fun t => if t = "A" then some [some 1] else none⟩ 2 ["A", "B"] [] ≤ 2 := by
  have h : healStep ⟨1, fun t => if t = "A" then some [some 1] else none⟩ ["A", "B"] [] =
      .next ["A"] ["B"] := by decide
  exact ⟨h, (fetch_retry_bounded _).1 ["A", "B"] [] ["A"] ["B"] h,
    ((fetch_retry_bounded _).2.1 2 ["A", "B"] []).1⟩

/-- C3 (code-bug evidence): tickers with disjoint histories — A trades only
on date 0, B only on date 2 — should, per the spec, make the common-window
intersection empty and trigger the drop of the most-constraining ticker;
instead the unbounded forward fill manufactures a complete row at date 2,
so fetch_price_data succeeds with no ticker dropped and a two-day-stale
price for A: the drop-latest-start branch of the loop never executes. -/
theorem fetch_drop_latest_start_dead :
    fetch_price_data ⟨3, fun t => if t = "A" then some [some 1, none, none]
      else if t = "B" then some [none, none, some 2] else none⟩ ["A", "B"] =
      .ok (⟨["A", "B"], [(2, [some 1, some 2])]⟩, []) := by
  decide

/-- C9: a successful fetch always carries a non-empty table and at least one
surviving initial ticker (so dropping every ticker can never end in an
empty success), the loop iteration on an empty working set raises the
all-assets-dropped error, and an exhausted retry budget raises the
no-common-range error. -/
theorem fetch_all_dropped_error (mkt : Market) :
    (∀ tickers tbl dropped, fetch_price_data mkt tickers = .ok (tbl, dropped) →
      (tbl.rows ≠ [] ∧ tbl.tickers ≠ [] ∧ ∃ t ∈ tickers, t ∉ dropped)) ∧
    (∀ fuel dropped, fetchLoop mkt (fuel + 1) [] dropped = .error .allDropped) ∧
    (∀ working dropped, fetchLoop mkt 0 working dropped = .error .noCommonRange) := by
  refine ⟨?_, ?_, ?_⟩
  · intro tickers tbl dropped h
    unfold fetch_price_data at h
    by_cases hne : tickers.isEmpty = true
    · rw [if_pos hne] at h; cases h
    · rw [if_neg hne] at h
      have hinv : LoopInv tickers tickers [] :=
        ⟨by simp, fun t ht => ht, by simp, fun t ht => Or.inl ht⟩
      obtain ⟨h1, h2, h3, h4, h5, h6⟩ :=
        fetchLoop_ok mkt tickers tickers.length tickers [] tbl dropped hinv h
      refine ⟨h1, h6, ?_⟩
      cases htk : tbl.tickers with
      | nil => exact absurd htk h6
      | cons t ts =>
        have : t ∈ tbl.tickers := by rw [htk]; exact List.mem_cons_self t ts
        exact ⟨t, ((h5 t).mp this).1, ((h5 t).mp this).2⟩
  · intro fuel dropped
    rw [fetchLoop]
    rw [show healStep mkt [] dropped = .fail .allDropped from rfl]
  · intro working dropped
    rw [fetchLoop]

/-- C9 witness: a concrete successful fetch instantiates the no-empty-
success conjunct. -/
theorem fetch_all_dropped_error_witness :
    fetch_price_data ⟨1, fun t => if t = "C" then some [some 5] else none⟩ ["C"] =
      .ok (⟨["C"], [(0, [some 5])]⟩, []) ∧
    ((⟨["C"], [(0, [some 5])]⟩ : PriceTable).rows ≠ [] ∧
      (⟨["C"], [(0, [some 5])]⟩ : PriceTable).tickers ≠ [] ∧
      ∃ t ∈ (["C"] : List String), t ∉ ([] : List String)) := by
  have h : fetch_price_data ⟨1, fun t => if t = "C" then some [some 5] else none⟩ ["C"] =
      .ok (⟨["C"], [(0, [some 5])]⟩, []) := by decide
  exact ⟨h, (fetch_all_dropped_error _).1 ["C"] _ [] h⟩

theorem sampleQuantile_ge_min (xs : List ℚ) (hne : xs ≠ []) (q : ℚ)
    (h0 : 0 ≤ q) (h1 : q ≤ 1) :
    ∃ x ∈ xs, x ≤ sampleQuantile xs q := by
  set s := xs.insertionSort (fun a b => a ≤ b) with hsdef
  have hperm : List.Perm s xs := List.perm_insertionSort _ xs
  have hsort : List.Sorted (fun a b => a ≤ b) s := List.sorted_insertionSort _ xs
  have hlen : s.length = xs.length := hperm.length_eq
  have hslen : 1 ≤ s.length := by
    rw [hlen]
    cases xs with
    | nil => exact absurd rfl hne
    | cons a l => simp
  obtain ⟨s0, srest, hs0⟩ : ∃ s0 srest, s = s0 :: srest := by
    cases hsc : s with
    | nil => rw [hsc] at hslen; simp at hslen
    | cons a l => exact ⟨a, l, rfl⟩
  have hhead : ∀ y ∈ s, s0 ≤ y := by
    intro y hy
    rw [hs0] at hy
    have hsort2 := hsort
    rw [hs0] at hsort2
    rcases List.mem_cons.mp hy with h4 | h4
    · exact le_of_eq h4.symm
    · exact (List.sorted_cons.mp hsort2).1 y h4
  set hq : ℚ := ((s.length : ℚ) - 1) * q with hhq
  have hn1 : (1 : ℚ) ≤ (s.length : ℚ) := by exact_mod_cast hslen
  have hq0 : 0 ≤ hq := mul_nonneg (by linarith) h0
  have hfl0 : 0 ≤ ⌊hq⌋ := Int.floor_nonneg.mpr hq0
  have hqle : hq ≤ (s.length : ℚ) - 1 := by nlinarith
  have hflle : ⌊hq⌋ ≤ (s.length : ℤ) - 1 := by
    have h2 : ((s.length : ℚ) - 1) = (((s.length : ℤ) - 1 : ℤ) : ℚ) := by push_cast; ring
    calc ⌊hq⌋ ≤ ⌊((s.length : ℚ) - 1)⌋ := Int.floor_le_floor hqle
    _ = (s.length : ℤ) - 1 := by rw [h2, Int.floor_intCast]
  set i := (⌊hq⌋).toNat with hidef
  have hilt : i < s.length := by omega
  have hicast : ((i : ℚ)) ≤ hq := by
    have h2 : ((i : ℤ) : ℚ) ≤ hq := by
      rw [hidef, Int.toNat_of_nonneg hfl0]
      exact Int.floor_le hq
    exact_mod_cast h2
  have hlo_mem : s.getD i 0 ∈ s := by
    rw [List.getD_eq_getElem s 0 hilt]
    exact List.getElem_mem hilt
  have hlo_le_hi : s.getD i 0 ≤ s.getD (i + 1) (s.getD i 0) := by
    by_cases hi1 : i + 1 < s.length
    · rw [List.getD_eq_getElem s _ hilt, List.getD_eq_getElem s _ hi1]
      have h6 : (⟨i, hilt⟩ : Fin s.length) < ⟨i + 1, hi1⟩ := by
        rw [Fin.mk_lt_mk]
        exact Nat.lt_succ_self i
      have h7 := List.Sorted.rel_get_of_lt hsort h6
      simpa using h7
    · rw [List.getD_eq_default s (s.getD i 0) (show s.length ≤ i + 1 by omega)]
  have hquant : sampleQuantile xs q =
      s.getD i 0 + (hq - (i : ℚ)) * (s.getD (i + 1) (s.getD i 0) - s.getD i 0) := rfl
  refine ⟨s0, hperm.mem_iff.mp (by rw [hs0]; exact List.mem_cons_self s0 srest), ?_⟩
  rw [hquant]
  have h5 : s0 ≤ s.getD i 0 := hhead _ hlo_mem
  nlinarith [mul_nonneg (by linarith : (0:ℚ) ≤ hq - (i : ℚ))
    (by linarith : (0:ℚ) ≤ s.getD (i + 1) (s.getD i 0) - s.getD i 0)]

/-- C10: on a NaN-free non-empty portfolio-return series with a quantile in
[0, 1], the stress date set is a non-empty subset of the series' index (the
minimum return is at or below the sample quantile), so a frame sharing that
index always gets past the stress-subset emptiness check of
compute_correlation_matrices. -/
theorem stress_pipeline_safe (s : List (Nat × ℚ)) (ar : DFrame) (q : ℚ)
    (hs : s ≠ []) (h0 : 0 ≤ q) (h1 : q ≤ 1)
    (hidx : ar.dates = s.map Prod.fst) (hlen : ar.rows.length = ar.dates.length)
    (hcols : ar.cols ≠ []) :
    ∃ r, identify_stress_periods s q = .ok r ∧ r ≠ [] ∧
      (∀ d ∈ r, d ∈ s.map Prod.fst) ∧
      ∃ m, compute_correlation_matrices ar r = .ok m := by
  have hne : s.isEmpty = false := by
    cases s with
    | nil => exact absurd rfl hs
    | cons a l => rfl
  have heq : identify_stress_periods s q = .ok ((s.filter
      (fun p => decide (p.2 ≤ sampleQuantile (s.map Prod.snd) q))).map Prod.fst) := by
    simp [identify_stress_periods, hne]
  have hrne : (s.filter (fun p =>
      decide (p.2 ≤ sampleQuantile (s.map Prod.snd) q))).map Prod.fst ≠ [] := by
    obtain ⟨x, hx, hxle⟩ := sampleQuantile_ge_min (s.map Prod.snd) (by simpa using hs) q h0 h1
    obtain ⟨p, hp, hpx⟩ := List.mem_map.mp hx
    intro hnil
    have hmem2 : p.1 ∈ (s.filter (fun p =>
        decide (p.2 ≤ sampleQuantile (s.map Prod.snd) q))).map Prod.fst := by
      refine List.mem_map.mpr ⟨p, List.mem_filter.mpr ⟨hp, ?_⟩, rfl⟩
      rw [hpx]
      exact decide_eq_true hxle
    rw [hnil] at hmem2
    cases hmem2
  have hmem : ∀ d ∈ (s.filter (fun p =>
      decide (p.2 ≤ sampleQuantile (s.map Prod.snd) q))).map Prod.fst, d ∈ s.map Prod.fst := by
    intro d hd
    obtain ⟨p, hp, hpd⟩ := List.mem_map.mp hd
    exact List.mem_map.mpr ⟨p, List.mem_of_mem_filter hp, hpd⟩
  refine ⟨_, heq, hrne, hmem, ?_⟩
  obtain ⟨d0, rtail, hr0⟩ : ∃ d0 rtail, (s.filter (fun p =>
      decide (p.2 ≤ sampleQuantile (s.map Prod.snd) q))).map Prod.fst = d0 :: rtail := by
    cases hrc : (s.filter (fun p =>
        decide (p.2 ≤ sampleQuantile (s.map Prod.snd) q))).map Prod.fst with
    | nil => exact absurd hrc hrne
    | cons a l => exact ⟨a, l, rfl⟩
  have hall : ((s.filter (fun p =>
      decide (p.2 ≤ sampleQuantile (s.map Prod.snd) q))).map Prod.fst).all
      (fun d => ar.dates.contains d) = true := by
    rw [List.all_eq_true]
    intro d hd
    refine List.elem_iff.mpr ?_
    rw [hidx]
    exact hmem d hd
  have hd0 : d0 ∈ ar.dates := by
    rw [hidx]
    exact hmem d0 (by rw [hr0]; exact List.mem_cons_self d0 rtail)
  obtain ⟨j, hj, hdj⟩ := List.mem_iff_getElem.mp hd0
  have hjz : j < (ar.dates.zip ar.rows).length := by
    rw [List.length_zip]
    omega
  have hzmem : (ar.dates.zip ar.rows)[j] ∈ ar.dates.zip ar.rows :=
    List.getElem_mem hjz
  have hzval : ((ar.dates.zip ar.rows)[j]).1 = d0 := by
    rw [List.getElem_zip]
    exact hdj
  have hfilne : ((ar.dates.zip ar.rows).filter (fun p => decide (p.1 = d0))) ≠ [] := by
    intro h0f
    have := List.filter_eq_nil_iff.mp h0f _ hzmem
    simp [hzval] at this
    exact this hdj
  have hlocne : locRows ar (d0 :: rtail) ≠ [] := by
    unfold locRows
    rw [List.flatMap_cons]
    intro h0f
    rcases List.append_eq_nil.mp h0f with ⟨hA, _⟩
    exact hfilne hA
  rw [hr0]
  unfold compute_correlation_matrices
  rw [hr0] at hall
  rw [if_pos hall]
  have hempf : (DFrame.mk ar.cols ((locRows ar (d0 :: rtail)).map Prod.fst)
      ((locRows ar (d0 :: rtail)).map Prod.snd)).isEmpty = false := by
    unfold DFrame.isEmpty
    cases hloc : locRows ar (d0 :: rtail) with
    | nil => exact absurd hloc hlocne
    | cons a l =>
      cases hc : ar.cols with
      | nil => exact absurd hc hcols
      | cons c cs => rfl
  rw [if_neg (by simp [hempf])]
  exact ⟨_, rfl⟩

/-- C10 witness: a one-point series with q = 1/2 produces a non-empty
stress set and a successful correlation computation downstream. -/
theorem stress_pipeline_safe_witness :
    (([(5, (2:ℚ))] : List (Nat × ℚ)) ≠ [] ∧ (0:ℚ) ≤ 1/2 ∧ (1:ℚ)/2 ≤ 1) ∧
    ∃ r, identify_stress_periods [(5, (2:ℚ))] (1/2) = .ok r ∧ r ≠ [] ∧
      (∀ d ∈ r, d ∈ ([(5, (2:ℚ))] : List (Nat × ℚ)).map Prod.fst) ∧
      ∃ m, compute_correlation_matrices ⟨["Z"], [5], [[3]]⟩ r = .ok m := by
  refine ⟨⟨by decide, by norm_num, by norm_num⟩, ?_⟩
  exact stress_pipeline_safe [(5, (2:ℚ))] ⟨["Z"], [5], [[3]]⟩ (1/2)
    (by decide) (by norm_num) (by norm_num) (by decide) (by decide) (by decide)
